import Mathlib

/-!
# Verification of the pokahbot hand evaluator

A shallow embedding of `src/submission/hand_evaluator.py` (class `HandEvaluator`)
together with a spec-side model of the equity simulator described in the design
document (the simulator itself has no source under `src/`).

Cards are integers: rank = card % 9 (0 = two … 8 = ace), suit = card / 9
(0,1,2), the sentinel -1 means "no card".  Python's `%` and `//` on a positive
modulus agree with Lean's `Int.emod` / `Int.ediv`, which are the `%` and `/`
used below.  Scores are rationals (the Python floats are decimal constants and
divisions by 8; all claims are about their exact arithmetic values).
-/

namespace Pokah

/-- `HandEvaluator.get_rank` (hand_evaluator.py lines 21-25):
`-1` stays `-1`, otherwise `card % 9`. -/
def get_rank (card : ℤ) : ℤ :=
  if card = -1 then -1 else card % 9

/-- `HandEvaluator.get_suit` (lines 27-30): `-1` stays `-1`, otherwise
`card // 9` (Python floor division = `Int.ediv` for the positive divisor 9). -/
def get_suit (card : ℤ) : ℤ :=
  if card = -1 then -1 else card / 9

/-- First-occurrence deduplication: the list of keys of a Python dict built by
iterating a list (insertion order), as in the `rank_count` / `suit_count`
loops of `get_strength_postflop` (lines 116-129). -/
def dedupFirst : List ℤ → List ℤ
  | [] => []
  | r :: rs => r :: (dedupFirst rs).filter (fun x => ¬ x == r)

/-- Python `max` over a list; the default -10 is below every value the
evaluator feeds it (ranks and suits are always ≥ -1), so on those nonempty
lists this equals Python's `max`. -/
def listMax (l : List ℤ) : ℤ := l.foldl max (-10)

/-- Python `min` over a list; the default 100 is above every rank (≤ 8). -/
def listMin (l : List ℤ) : ℤ := l.foldl min 100

/-- Python `sorted(l)` (ascending). -/
def sortAsc (l : List ℤ) : List ℤ := l.insertionSort (· ≤ ·)

/-- Python `sorted(l, reverse=True)` (descending). -/
def sortDesc (l : List ℤ) : List ℤ := l.insertionSort (· ≥ ·)

/-- The rank list `player_ranks + community_ranks` of
`get_strength_postflop` (lines 108-112). -/
def allRanks (player_cards community_cards : List ℤ) : List ℤ :=
  player_cards.map get_rank ++ community_cards.map get_rank

/-- The suit list `player_suits + community_suits` (lines 109-113). -/
def allSuits (player_cards community_cards : List ℤ) : List ℤ :=
  player_cards.map get_suit ++ community_cards.map get_suit

/-- The flush-detection loop (lines 155-161): the first suit, in dict
(first-occurrence) order, whose count is ≥ 5.  Scanning the suit list itself
and taking the first qualifying entry yields exactly the suit whose first
occurrence is earliest, i.e. the dict-iteration winner. -/
def flushSuit (suits : List ℤ) : Option ℤ :=
  suits.find? (fun s => decide (5 ≤ suits.count s))

/-- `has_flush` (line 156-159). -/
def hasFlush (suits : List ℤ) : Bool := (flushSuit suits).isSome

/-- `flush_ranks` (lines 164-166): ranks at the positions whose suit is the
flush suit; `[]` when there is no flush. -/
def flushRanks (ranks suits : List ℤ) : List ℤ :=
  match flushSuit suits with
  | some fs => ((ranks.zip suits).filter (fun p => p.2 == fs)).map Prod.fst
  | none => []

/-- The window scan of `has_straight_in_ranks` (lines 137-139): on the sorted
unique rank list, return the high card `unique_ranks[i+4]` of the first `i`
with `unique_ranks[i+4] - unique_ranks[i] == 4`. -/
def findWindow : List ℤ → Option ℤ
  | a :: b :: c :: d :: e :: rest =>
      if e - a = 4 then some e else findWindow (b :: c :: d :: e :: rest)
  | _ => none

/-- `has_straight_in_ranks` (lines 132-149): regular 5-run scan, then the
Ace-low straight {0,1,2,3,8} (high 3), then the Ace-high straight
{4,5,6,7,8} (high 8). -/
def hasStraightInRanks (ranks : List ℤ) : Bool × ℤ :=
  let u := sortAsc (dedupFirst ranks)
  match findWindow u with
  | some h => (true, h)
  | none =>
    if 0 ∈ u ∧ 1 ∈ u ∧ 2 ∈ u ∧ 3 ∈ u ∧ 8 ∈ u then (true, 3)
    else if 4 ∈ u ∧ 5 ∈ u ∧ 6 ∈ u ∧ 7 ∈ u ∧ 8 ∈ u then (true, 8)
    else (false, -1)

/-- `trips` (line 177): ranks with count ≥ 3, in dict order. -/
def tripRanks (ranks : List ℤ) : List ℤ :=
  (dedupFirst ranks).filter (fun r => decide (3 ≤ ranks.count r))

/-- `pairs` (line 178): ranks with count exactly 2, in dict order. -/
def pairRanks (ranks : List ℤ) : List ℤ :=
  (dedupFirst ranks).filter (fun r => ranks.count r == 2)

/-- `all_pairs` (lines 184-187): the genuine pairs plus every trips rank
other than the best one. -/
def allPairsList (ranks : List ℤ) : List ℤ :=
  pairRanks ranks ++ (tripRanks ranks).filter (fun t => ¬ t == listMax (tripRanks ranks))

/-- The straight-flush test (lines 168-173): a flush whose cards contain a
straight. -/
def sfCond (ranks suits : List ℤ) : Prop :=
  hasFlush suits = true ∧ 5 ≤ (flushRanks ranks suits).length ∧
    (hasStraightInRanks (flushRanks ranks suits)).1 = true

instance (ranks suits : List ℤ) : Decidable (sfCond ranks suits) := by
  unfold sfCond; infer_instance

/-- The full-house guard (line 180): `trips and (len(trips) > 1 or pairs)`. -/
def fhCond (ranks : List ℤ) : Prop :=
  tripRanks ranks ≠ [] ∧ (1 < (tripRanks ranks).length ∨ pairRanks ranks ≠ [])

instance (ranks : List ℤ) : Decidable (fhCond ranks) := by
  unfold fhCond; infer_instance

/-- The full-house score (lines 181-195). -/
def fhScore (ranks : List ℤ) : ℚ :=
  if allPairsList ranks ≠ [] then
    9/10 + ((listMax (tripRanks ranks) : ℚ)/8) * (7/100)
         + ((listMax (allPairsList ranks) : ℚ)/8) * (1/100)
  else
    9/10 + ((listMax (tripRanks ranks) : ℚ)/8) * (8/100)

/-- The flush score (lines 198-201). -/
def flushScore (ranks suits : List ℤ) : ℚ :=
  8/10 + ((listMax (flushRanks ranks suits) : ℚ)/8) * (9/100)

/-- The straight score (lines 203-206). -/
def straightScore (ranks : List ℤ) : ℚ :=
  7/10 + (((hasStraightInRanks ranks).2 : ℚ)/8) * (9/100)

/-- The three-of-a-kind score (lines 209-212). -/
def tripsScore (ranks : List ℤ) : ℚ :=
  6/10 + ((listMax (tripRanks ranks) : ℚ)/8) * (9/100)

/-- The two-pair score (lines 215-221). -/
def twoPairScore (ranks : List ℤ) : ℚ :=
  45/100 + (((sortDesc (pairRanks ranks)).getD 0 0 : ℚ)/8) * (1/10)
         + (((sortDesc (pairRanks ranks)).getD 1 0 : ℚ)/8) * (4/100)

/-- The one-pair score (lines 224-244): kicker bonus from the top non-paired
rank, base depending on whether the paired rank touches the player's cards,
clamped at 0.44. -/
def pairScore (player_ranks ranks : List ℤ) : ℚ :=
  let pr := listMax (pairRanks ranks)
  let kickers := (sortDesc (ranks.filter (fun r => ¬ r == pr))).take 3
  let kicker_value : ℚ :=
    match kickers with
    | [] => 0
    | k :: _ => (3/100) * ((k : ℚ)/8)
  let base : ℚ :=
    if pr ∈ player_ranks then 3/10 + ((pr : ℚ)/8) * (12/100)
    else 1/4 + ((pr : ℚ)/8) * (1/10)
  min (44/100) (base + kicker_value)

/-- `HandEvaluator.get_strength_postflop` (lines 105-253).  Branches in source
order: straight flush, full house, flush, straight, three of a kind, two
pair, one pair, high card.  The only partial spot in the Python code is the
final `sorted_ranks[0]` (line 251), which raises `IndexError` on an empty
card list; that is modeled by `none`. -/
def get_strength_postflop (player_cards community_cards : List ℤ) : Option (ℚ × ℤ) :=
  let r := allRanks player_cards community_cards
  let s := allSuits player_cards community_cards
  if sfCond r s then some (99/100, 7)
  else if fhCond r then some (fhScore r, 6)
  else if hasFlush s then some (flushScore r s, 5)
  else if (hasStraightInRanks r).1 = true then some (straightScore r, 4)
  else if tripRanks r ≠ [] then some (tripsScore r, 3)
  else if 2 ≤ (pairRanks r).length then some (twoPairScore r, 2)
  else if pairRanks r ≠ [] then some (pairScore (player_cards.map get_rank) r, 1)
  else
    match sortDesc r with
    | [] => none
    | top :: _ => some (1/10 + ((top : ℚ)/8) * (14/100), 0)

/-- `HandEvaluator.is_suited` (lines 38-43). -/
def is_suited (cards : List ℤ) : Bool :=
  if cards.length < 2 then false
  else
    match cards with
    | [] => false
    | c :: _ => cards.all (fun x => get_suit x == get_suit c)

/-- `HandEvaluator.get_strength_preflop` (lines 51-103). -/
def get_strength_preflop (cards : List ℤ) : ℚ :=
  if cards.length < 2 then 0
  else
    let ranks := sortDesc (cards.map get_rank)
    let r0 := ranks.getD 0 0
    let r1 := ranks.getD 1 0
    if r0 = r1 then
      if r0 = 8 then 95/100
      else if 5 ≤ r0 then 85/100 + ((r0 : ℚ) - 5) * (3/100)
      else if 3 ≤ r0 then 65/100 + ((r0 : ℚ) - 3) * (5/100)
      else 1/2 + (r0 : ℚ) * (5/100)
    else
      let suited : ℚ := if is_suited cards then 1 else 0
      let high := listMax (cards.map get_rank)
      let second := listMin (cards.map get_rank)
      if high = 8 then
        if 7 ≤ second then 65/100 + (1/10) * suited
        else if 5 ≤ second then 55/100 + (15/100) * suited
        else 2/5 + (15/100) * suited
      else if (high - second).natAbs = 1 ∧ 6 ≤ high then 35/100 + (15/100) * suited
      else if 6 ≤ high then 3/10 + (1/10) * suited
      else 1/5 + (1/10) * suited

/-- The 27-card deck in the iteration order of `best_and_worst_hands`
(lines 313-323) and `bet_size_helper` (lines 515-520): ranks outer, suits
inner, card = suit*9 + rank. -/
def deckOrder : List ℤ :=
  [0, 9, 18, 1, 10, 19, 2, 11, 20, 3, 12, 21, 4, 13, 22,
   5, 14, 23, 6, 15, 24, 7, 16, 25, 8, 17, 26]

/-- The remaining deck after removing the community cards (lines 313-323). -/
def remainingCards (community : List ℤ) : List ℤ :=
  deckOrder.filter (fun c => ¬ c ∈ community)

/-- All unordered hole-card pairs in the nested-loop order of lines 329-331. -/
def holePairs : List ℤ → List (ℤ × ℤ)
  | [] => []
  | x :: xs => xs.map (fun y => (x, y)) ++ holePairs xs

/-- One tracked hand of `best_and_worst_hands` (strength, hole cards,
ranking; the human-readable `description` string is presentation-only and
not modeled). -/
structure HandResult where
  strength : ℚ
  holeCards : List ℤ
  ranking : ℤ
  deriving Repr, DecidableEq

/-- The strength of one candidate hole-card pair (line 334).  The classifier
is total on nonempty card lists, so the `getD` default is never used here. -/
def pairStrength (community : List ℤ) (p : ℤ × ℤ) : ℚ :=
  ((get_strength_postflop [p.1, p.2] community).getD (0, 0)).1

/-- The ranking of one candidate hole-card pair (line 334). -/
def pairRanking (community : List ℤ) (p : ℤ × ℤ) : ℤ :=
  ((get_strength_postflop [p.1, p.2] community).getD (0, 0)).2

/-- One iteration of the tracking loop (lines 329-355): replace the best hand
on strictly greater strength, the worst on strictly smaller. -/
def bw_step (community : List ℤ) (st : HandResult × HandResult) (p : ℤ × ℤ) :
    HandResult × HandResult :=
  let s := pairStrength community p
  let rk := pairRanking community p
  (if st.1.strength < s then ⟨s, [p.1, p.2], rk⟩ else st.1,
   if s < st.2.strength then ⟨s, [p.1, p.2], rk⟩ else st.2)

/-- Initial best hand (line 325). -/
def initBest : HandResult := ⟨-1, [], -1⟩

/-- Initial worst hand (line 326). -/
def initWorst : HandResult := ⟨2, [], 8⟩

/-- `HandEvaluator.best_and_worst_hands` (lines 307-361), over integer
community cards (the function first converts notation strings to exactly
these integers via `card_notation_to_int`; the string codec is bijective on
the 27 valid cards and is not itself under claim here). -/
def best_and_worst_hands (community : List ℤ) : HandResult × HandResult :=
  (holePairs (remainingCards community)).foldl (bw_step community) (initBest, initWorst)

/-- `HandEvaluator.bet_size_helper` (lines 500-536): 0.5 on an empty board,
otherwise the strength of the best enumerated hand. -/
def bet_size_helper (community : List ℤ) : ℚ :=
  if community = [] then 1/2
  else
    ((holePairs (remainingCards community)).foldl
      (fun acc p => if acc < pairStrength community p then pairStrength community p else acc)
      (-1))

/-- The preflop table exactly as the claim states it, for comparison with
`get_strength_preflop` (refinement statement for claim C7): closed-form
strength for two hole cards of ranks `r1`, `r2`. -/
def preflopTableSpec (r1 r2 : ℤ) (suited : Bool) : ℚ :=
  let bonus : ℚ := if suited then 1 else 0
  if r1 = r2 then
    if r1 = 8 then 95/100
    else if 5 ≤ r1 then 85/100 + ((r1 : ℚ) - 5) * (3/100)
    else if 3 ≤ r1 then 65/100 + ((r1 : ℚ) - 3) * (5/100)
    else 1/2 + (r1 : ℚ) * (5/100)
  else
    if max r1 r2 = 8 then
      if 7 ≤ min r1 r2 then 65/100 + (1/10) * bonus
      else if 5 ≤ min r1 r2 then 55/100 + (15/100) * bonus
      else 2/5 + (15/100) * bonus
    else if max r1 r2 - min r1 r2 = 1 ∧ 6 ≤ max r1 r2 then 35/100 + (15/100) * bonus
    else if 6 ≤ max r1 r2 then 3/10 + (1/10) * bonus
    else 1/5 + (1/10) * bonus

/-- Clamp to the unit interval (§4.4 "Result = accumulated score / N, clamped
to [0,1]"). -/
def clamp01 (x : ℚ) : ℚ := max 0 (min 1 x)

/-- Modelled from the spec: §4.4 step 1.  The unseen cards are the 27-card
deck minus every card visible to the evaluator (player hole cards, community
cards, opponent-revealed cards).  The Monte Carlo equity simulator itself has
no source under `src/`; only this design-document description defines it. -/
def unseenCards (hole community oppKnown : List ℤ) : List ℤ :=
  deckOrder.filter (fun c => ¬ (c ∈ hole ∨ c ∈ community ∨ c ∈ oppKnown))

/-- Modelled from the spec: §4.4 steps 2-4 for one trial.  `draw` is the
sampled unseen-card sequence for this trial; it completes the opponent hand
to exactly 2 cards and the community to exactly 5, then both hands are
classified via the §4.2 classifier and compared (win 1, tie 0.5, loss 0). -/
def trialScore (hole community oppKnown : List ℤ) (draw : List ℤ) : ℚ :=
  let opp := oppKnown ++ draw.take (2 - oppKnown.length)
  let comm := community ++ ((draw.drop (2 - oppKnown.length)).take (5 - community.length))
  let sp := ((get_strength_postflop hole comm).getD (0, 0)).1
  let so := ((get_strength_postflop opp comm).getD (0, 0)).1
  if so < sp then 1 else if sp = so then 1/2 else 0

/-- Modelled from the spec: §4.4 Equity Simulator with injected randomness
(§5): `draws` holds the pre-sampled card sequence of each of the N trials.
If fewer than 2 unseen cards remain the simulation is degenerate and the
fixed neutral value 0.5 is returned; otherwise the result is the accumulated
win/tie/loss score divided by the trial count, clamped to [0,1]. -/
def simulate_equity (hole community oppKnown : List ℤ) (draws : List (List ℤ)) : ℚ :=
  if (unseenCards hole community oppKnown).length < 2 then 1/2
  else clamp01 (((draws.map (trialScore hole community oppKnown)).sum) / (draws.length : ℚ))

/-! ## Generic list lemmas -/

theorem foldlMax_le {b : ℤ} : ∀ {l : List ℤ} {d : ℤ}, d ≤ b → (∀ x ∈ l, x ≤ b) →
    l.foldl max d ≤ b := by
  intro l
  induction l with
  | nil => intro d hd _; exact hd
  | cons x xs ih =>
    intro d hd h
    simp only [List.foldl_cons]
    exact ih (max_le hd (h x (by simp))) (fun y hy => h y (by simp [hy]))

theorem le_foldlMax_init : ∀ (l : List ℤ) (d : ℤ), d ≤ l.foldl max d
  | [], _ => le_refl _
  | x :: xs, d => le_trans (le_max_left d x) (le_foldlMax_init xs (max d x))

theorem le_foldlMax_mem : ∀ {l : List ℤ} {x : ℤ} (d : ℤ), x ∈ l → x ≤ l.foldl max d := by
  intro l
  induction l with
  | nil => intro x d hx; cases hx
  | cons y ys ih =>
    intro x d hx
    rcases List.mem_cons.mp hx with h | h
    · subst h
      exact le_trans (le_max_right d x) (le_foldlMax_init ys (max d x))
    · exact ih (max d y) h

theorem foldlMax_eq_init_or_mem : ∀ (l : List ℤ) (d : ℤ),
    l.foldl max d = d ∨ l.foldl max d ∈ l := by
  intro l
  induction l with
  | nil => intro d; exact Or.inl rfl
  | cons y ys ih =>
    intro d
    rcases ih (max d y) with h | h
    · simp only [List.foldl_cons] at *
      rw [h]
      rcases max_choice d y with hm | hm
      · exact Or.inl hm
      · exact Or.inr (by simp [hm])
    · exact Or.inr (List.mem_cons_of_mem _ h)

theorem listMax_le {l : List ℤ} {b : ℤ} (hb : -10 ≤ b) (h : ∀ x ∈ l, x ≤ b) :
    listMax l ≤ b := foldlMax_le hb h

theorem le_listMax {l : List ℤ} {x : ℤ} (hx : x ∈ l) : x ≤ listMax l :=
  le_foldlMax_mem _ hx

theorem listMax_mem {l : List ℤ} (hne : l ≠ []) (h : ∀ x ∈ l, -1 ≤ x) :
    listMax l ∈ l := by
  rcases foldlMax_eq_init_or_mem l (-10) with he | hm
  · rcases l with _ | ⟨x, xs⟩
    · exact absurd rfl hne
    · exfalso
      have h1 : x ≤ listMax (x :: xs) := le_listMax (by simp)
      have h2 : -1 ≤ x := h x (by simp)
      rw [listMax] at h1
      omega
  · exact hm

theorem mem_dedupFirst : ∀ {l : List ℤ} {x : ℤ}, x ∈ dedupFirst l ↔ x ∈ l := by
  intro l
  induction l with
  | nil => intro x; simp [dedupFirst]
  | cons r rs ih =>
    intro x
    by_cases hx : x = r
    · subst hx; simp [dedupFirst]
    · simp [dedupFirst, List.mem_filter, hx, ih]

theorem nodup_dedupFirst : ∀ (l : List ℤ), (dedupFirst l).Nodup := by
  intro l
  induction l with
  | nil => simp [dedupFirst]
  | cons r rs ih =>
    rw [dedupFirst]
    refine List.nodup_cons.mpr ⟨?_, List.Nodup.filter _ ih⟩
    intro hmem
    have := (List.mem_filter.mp hmem).2
    simp at this

theorem mem_sortAsc {l : List ℤ} {x : ℤ} : x ∈ sortAsc l ↔ x ∈ l :=
  (List.perm_insertionSort _ l).mem_iff

theorem mem_sortDesc {l : List ℤ} {x : ℤ} : x ∈ sortDesc l ↔ x ∈ l :=
  (List.perm_insertionSort _ l).mem_iff

theorem sortAsc_sorted (l : List ℤ) : (sortAsc l).Sorted (· ≤ ·) :=
  List.sorted_insertionSort _ l

theorem nodup_sortAsc {l : List ℤ} (h : l.Nodup) : (sortAsc l).Nodup :=
  ((List.perm_insertionSort _ l).nodup_iff).mpr h

theorem getD_mem {l : List ℤ} {i : ℕ} {d : ℤ} (h : i < l.length) : l.getD i d ∈ l := by
  rw [List.getD_eq_getElem l d h]
  exact List.getElem_mem h

/-! ## Rank and suit bounds -/

theorem get_rank_le (c : ℤ) : get_rank c ≤ 8 := by
  rw [get_rank]
  split
  · omega
  · have := Int.emod_lt_of_pos c (by norm_num : (0:ℤ) < 9)
    omega

theorem get_rank_ge (c : ℤ) : -1 ≤ get_rank c := by
  rw [get_rank]
  split
  · omega
  · have := Int.emod_nonneg c (by norm_num : (9:ℤ) ≠ 0)
    omega

theorem get_rank_nonneg {c : ℤ} (h0 : 0 ≤ c) : 0 ≤ get_rank c := by
  rw [get_rank]
  split
  · omega
  · exact Int.emod_nonneg c (by norm_num)

theorem allRanks_le {pc cc : List ℤ} : ∀ x ∈ allRanks pc cc, x ≤ 8 := by
  intro x hx
  rw [allRanks, List.mem_append] at hx
  rcases hx with h | h <;>
  · rcases List.mem_map.mp h with ⟨c, _, rfl⟩
    exact get_rank_le c

theorem allRanks_ge {pc cc : List ℤ} : ∀ x ∈ allRanks pc cc, -1 ≤ x := by
  intro x hx
  rw [allRanks, List.mem_append] at hx
  rcases hx with h | h <;>
  · rcases List.mem_map.mp h with ⟨c, _, rfl⟩
    exact get_rank_ge c

theorem allRanks_bounds {pc cc : List ℤ} (hv : ∀ c ∈ pc ++ cc, 0 ≤ c ∧ c ≤ 26) :
    ∀ x ∈ allRanks pc cc, 0 ≤ x ∧ x ≤ 8 := by
  intro x hx
  rw [allRanks, List.mem_append] at hx
  have key : ∀ c ∈ pc ++ cc, 0 ≤ get_rank c ∧ get_rank c ≤ 8 := by
    intro c hc
    exact ⟨get_rank_nonneg (hv c hc).1, get_rank_le c⟩
  rcases hx with h | h
  · rcases List.mem_map.mp h with ⟨c, hc, rfl⟩
    exact key c (List.mem_append.mpr (Or.inl hc))
  · rcases List.mem_map.mp h with ⟨c, hc, rfl⟩
    exact key c (List.mem_append.mpr (Or.inr hc))

theorem allRanks_length_eq (pc cc : List ℤ) :
    (allRanks pc cc).length = (allSuits pc cc).length := by
  simp [allRanks, allSuits]

/-! ## Flush lemmas -/

theorem flushSuit_count {suits : List ℤ} {fs : ℤ} (h : flushSuit suits = some fs) :
    5 ≤ suits.count fs := by
  have := List.find?_some h
  simpa using this

theorem mem_flushRanks {ranks suits : List ℤ} {x : ℤ}
    (h : x ∈ flushRanks ranks suits) : x ∈ ranks := by
  rw [flushRanks] at h
  rcases hfs : flushSuit suits with _ | fs
  · rw [hfs] at h; cases h
  · rw [hfs] at h
    rcases List.mem_map.mp h with ⟨p, hp, rfl⟩
    exact (List.of_mem_zip (List.mem_filter.mp hp).1).1

theorem zip_filter_snd_length :
    ∀ (ranks suits : List ℤ) (fs : ℤ), ranks.length = suits.length →
    ((ranks.zip suits).filter (fun p => p.2 == fs)).length = suits.count fs := by
  intro ranks
  induction ranks with
  | nil =>
    intro suits fs h
    rcases suits with _ | ⟨s, ss⟩
    · simp
    · simp at h
  | cons r rs ih =>
    intro suits fs h
    rcases suits with _ | ⟨s, ss⟩
    · simp at h
    · simp only [List.zip_cons_cons, List.filter_cons, List.count_cons]
      by_cases hs : s = fs
      · simp only [hs]
        simp only [List.length] at h
        simp [ih ss fs (by omega)]
      · have : ((r, s).2 == fs) = false := by simp [hs]
        rw [this]
        simp only [List.length] at h
        simp [ih ss fs (by omega), hs]

theorem flushRanks_length {ranks suits : List ℤ} {fs : ℤ}
    (hlen : ranks.length = suits.length) (h : flushSuit suits = some fs) :
    (flushRanks ranks suits).length = suits.count fs := by
  rw [flushRanks, h]
  simp [zip_filter_snd_length ranks suits fs hlen]

theorem flushRanks_ne_nil {ranks suits : List ℤ}
    (hlen : ranks.length = suits.length) (hf : hasFlush suits = true) :
    flushRanks ranks suits ≠ [] := by
  rw [hasFlush, Option.isSome_iff_exists] at hf
  rcases hf with ⟨fs, hfs⟩
  have h1 := flushRanks_length hlen hfs
  have h2 := flushSuit_count hfs
  intro hnil
  rw [hnil] at h1
  simp at h1
  omega

/-! ## Straight-window lemmas -/

theorem findWindow_mem : ∀ {l : List ℤ} {w : ℤ}, findWindow l = some w → w ∈ l := by
  intro l
  induction l with
  | nil => intro w hf; exact Option.noConfusion hf
  | cons a xs ih =>
    intro w hf
    rcases xs with _ | ⟨b, _ | ⟨c, _ | ⟨d, _ | ⟨e, rest⟩⟩⟩⟩
    · exact Option.noConfusion hf
    · exact Option.noConfusion hf
    · exact Option.noConfusion hf
    · exact Option.noConfusion hf
    · rw [findWindow] at hf
      by_cases hcase : e - a = 4
      · rw [if_pos hcase] at hf
        cases hf
        simp
      · rw [if_neg hcase] at hf
        exact List.mem_cons_of_mem _ (ih hf)

theorem findWindow_window : ∀ {l : List ℤ}, l.Sorted (· < ·) → ∀ {w : ℤ},
    findWindow l = some w →
    ∃ a : ℤ, a ∈ l ∧ a + 1 ∈ l ∧ a + 2 ∈ l ∧ a + 3 ∈ l ∧ a + 4 ∈ l ∧ w = a + 4 := by
  intro l
  induction l with
  | nil => intro _ w hf; exact Option.noConfusion hf
  | cons a xs ih =>
    intro hs w hf
    rcases xs with _ | ⟨b, _ | ⟨c, _ | ⟨d, _ | ⟨e, rest⟩⟩⟩⟩
    · exact Option.noConfusion hf
    · exact Option.noConfusion hf
    · exact Option.noConfusion hf
    · exact Option.noConfusion hf
    · rw [findWindow] at hf
      have h1 : a < b := (List.pairwise_cons.mp hs).1 b (by simp)
      have hs2 := (List.pairwise_cons.mp hs).2
      have h2 : b < c := (List.pairwise_cons.mp hs2).1 c (by simp)
      have hs3 := (List.pairwise_cons.mp hs2).2
      have h3 : c < d := (List.pairwise_cons.mp hs3).1 d (by simp)
      have hs4 := (List.pairwise_cons.mp hs3).2
      have h4 : d < e := (List.pairwise_cons.mp hs4).1 e (by simp)
      by_cases hcase : e - a = 4
      · rw [if_pos hcase] at hf
        have hew : e = w := Option.some.inj hf
        have hb : b = a + 1 := by omega
        have hc : c = a + 2 := by omega
        have hd : d = a + 3 := by omega
        have he : e = a + 4 := by omega
        exact ⟨a, by simp, by rw [← hb]; simp, by rw [← hc]; simp,
          by rw [← hd]; simp, by rw [← he]; simp, by omega⟩
      · rw [if_neg hcase] at hf
        rcases ih hs2 hf with ⟨x, hx1, hx2, hx3, hx4, hx5, hx6⟩
        exact ⟨x, List.mem_cons_of_mem _ hx1, List.mem_cons_of_mem _ hx2,
          List.mem_cons_of_mem _ hx3, List.mem_cons_of_mem _ hx4,
          List.mem_cons_of_mem _ hx5, hx6⟩

theorem mem_uniqueRanks {ranks : List ℤ} {x : ℤ} :
    x ∈ sortAsc (dedupFirst ranks) ↔ x ∈ ranks :=
  mem_sortAsc.trans mem_dedupFirst

theorem uniqueRanks_sorted_lt (ranks : List ℤ) :
    (sortAsc (dedupFirst ranks)).Sorted (· < ·) :=
  List.Sorted.lt_of_le (sortAsc_sorted _) (nodup_sortAsc (nodup_dedupFirst ranks))

/-- If the straight detector fires, its high card is an element of the rank
list or one of the two special constants 3 (wheel) and 8 (Ace-high). -/
theorem straight_high_cases {ranks : List ℤ}
    (h : (hasStraightInRanks ranks).1 = true) :
    (hasStraightInRanks ranks).2 ∈ ranks ∨
      (hasStraightInRanks ranks).2 = 3 ∨ (hasStraightInRanks ranks).2 = 8 := by
  rcases hw : findWindow (sortAsc (dedupFirst ranks)) with _ | w
  · simp only [hasStraightInRanks, hw] at h ⊢
    split_ifs with hc1 hc2
    · right; left; rfl
    · right; right; rfl
    · rw [if_neg hc1, if_neg hc2] at h
      simp at h
  · simp only [hasStraightInRanks, hw]
    exact Or.inl (mem_uniqueRanks.mp (findWindow_mem hw))

/-- The wheel case of claim C6: with ranks {0,1,2,3,8} present and rank 4
absent, no 5-consecutive window exists (every window inside [0,8] contains
4), so the detector returns the Ace-low straight with high card 3. -/
theorem wheel_straight {ranks : List ℤ}
    (hb : ∀ x ∈ ranks, 0 ≤ x ∧ x ≤ 8)
    (m0 : (0:ℤ) ∈ ranks) (m1 : (1:ℤ) ∈ ranks) (m2 : (2:ℤ) ∈ ranks)
    (m3 : (3:ℤ) ∈ ranks) (m8 : (8:ℤ) ∈ ranks) (n4 : (4:ℤ) ∉ ranks) :
    hasStraightInRanks ranks = (true, 3) := by
  have hw : findWindow (sortAsc (dedupFirst ranks)) = none := by
    rcases hw : findWindow (sortAsc (dedupFirst ranks)) with _ | w
    · rfl
    · exfalso
      rcases findWindow_window (uniqueRanks_sorted_lt ranks) hw with
        ⟨a, ha0, ha1, ha2, ha3, ha4, _⟩
      have hA : 0 ≤ a := (hb a (mem_uniqueRanks.mp ha0)).1
      have hB : a ≤ 4 := by
        have := (hb (a + 4) (mem_uniqueRanks.mp ha4)).2
        omega
      have h4u : (4:ℤ) ∈ sortAsc (dedupFirst ranks) := by
        interval_cases a
        · simpa using ha4
        · simpa using ha3
        · simpa using ha2
        · simpa using ha1
        · simpa using ha0
      exact n4 (mem_uniqueRanks.mp h4u)
  rw [hasStraightInRanks, hw]
  rw [if_pos ⟨mem_uniqueRanks.mpr m0, mem_uniqueRanks.mpr m1, mem_uniqueRanks.mpr m2,
    mem_uniqueRanks.mpr m3, mem_uniqueRanks.mpr m8⟩]

/-- The Ace-high case of claim C6: with ranks {4,5,6,7,8} present and rank 3
absent, the only possible 5-consecutive window is {4,…,8}, so the detector
returns high card 8 (whether via the window scan or the special branch). -/
theorem acehigh_straight {ranks : List ℤ}
    (hb : ∀ x ∈ ranks, 0 ≤ x ∧ x ≤ 8)
    (m4 : (4:ℤ) ∈ ranks) (m5 : (5:ℤ) ∈ ranks) (m6 : (6:ℤ) ∈ ranks)
    (m7 : (7:ℤ) ∈ ranks) (m8 : (8:ℤ) ∈ ranks) (n3 : (3:ℤ) ∉ ranks) :
    hasStraightInRanks ranks = (true, 8) := by
  rcases hw : findWindow (sortAsc (dedupFirst ranks)) with _ | w
  · rw [hasStraightInRanks, hw]
    rw [if_neg (by
      intro hcon
      exact n3 (mem_uniqueRanks.mp hcon.2.2.2.1))]
    rw [if_pos ⟨mem_uniqueRanks.mpr m4, mem_uniqueRanks.mpr m5, mem_uniqueRanks.mpr m6,
      mem_uniqueRanks.mpr m7, mem_uniqueRanks.mpr m8⟩]
  · rcases findWindow_window (uniqueRanks_sorted_lt ranks) hw with
      ⟨a, ha0, ha1, ha2, ha3, ha4, hwa⟩
    have hA : 0 ≤ a := (hb a (mem_uniqueRanks.mp ha0)).1
    have hB : a ≤ 4 := by
      have := (hb (a + 4) (mem_uniqueRanks.mp ha4)).2
      omega
    have ha4' : a = 4 := by
      by_contra hne
      have : a ≤ 3 := by omega
      have h3u : (3:ℤ) ∈ sortAsc (dedupFirst ranks) := by
        interval_cases a
        · simpa using ha3
        · simpa using ha2
        · simpa using ha1
        · simpa using ha0
      exact n3 (mem_uniqueRanks.mp h3u)
    rw [hasStraightInRanks, hw]
    rw [hwa, ha4']
    norm_num

/-! ## Score-band lemmas -/

theorem tripRanks_subset {ranks : List ℤ} : ∀ x ∈ tripRanks ranks, x ∈ ranks := by
  intro x hx
  exact mem_dedupFirst.mp (List.mem_filter.mp hx).1

theorem pairRanks_subset {ranks : List ℤ} : ∀ x ∈ pairRanks ranks, x ∈ ranks := by
  intro x hx
  exact mem_dedupFirst.mp (List.mem_filter.mp hx).1

theorem allPairsList_subset {ranks : List ℤ} : ∀ x ∈ allPairsList ranks, x ∈ ranks := by
  intro x hx
  rcases List.mem_append.mp hx with h | h
  · exact pairRanks_subset x h
  · exact tripRanks_subset x (List.mem_filter.mp h).1

theorem listMax_bounds {l ranks : List ℤ} (hsub : ∀ x ∈ l, x ∈ ranks)
    (hb : ∀ x ∈ ranks, 0 ≤ x ∧ x ≤ 8) (hne : l ≠ []) :
    0 ≤ listMax l ∧ listMax l ≤ 8 := by
  have hmem := listMax_mem hne (fun x hx => by
    have := (hb x (hsub x hx)).1
    omega)
  exact hb _ (hsub _ hmem)

theorem rankQ_bounds {x : ℤ} (h : 0 ≤ x ∧ x ≤ 8) : (0:ℚ) ≤ (x:ℚ) ∧ (x:ℚ) ≤ 8 := by
  constructor <;> [exact_mod_cast h.1; exact_mod_cast h.2]

theorem fhScore_bounds {ranks : List ℤ} (hb : ∀ x ∈ ranks, 0 ≤ x ∧ x ≤ 8)
    (hc : fhCond ranks) : 9/10 ≤ fhScore ranks ∧ fhScore ranks ≤ 98/100 := by
  have hbt := rankQ_bounds (listMax_bounds tripRanks_subset hb hc.1)
  rw [fhScore]
  split_ifs with hap
  · have hbp := rankQ_bounds (listMax_bounds allPairsList_subset hb hap)
    constructor <;> nlinarith [hbt.1, hbt.2, hbp.1, hbp.2]
  · constructor <;> nlinarith [hbt.1, hbt.2]

theorem flushScore_bounds {ranks suits : List ℤ} (hb : ∀ x ∈ ranks, 0 ≤ x ∧ x ≤ 8)
    (hlen : ranks.length = suits.length) (hf : hasFlush suits = true) :
    8/10 ≤ flushScore ranks suits ∧ flushScore ranks suits ≤ 89/100 := by
  have hne := flushRanks_ne_nil hlen hf
  have hbf := rankQ_bounds (listMax_bounds (fun x hx => mem_flushRanks hx) hb hne)
  rw [flushScore]
  constructor <;> nlinarith [hbf.1, hbf.2]

theorem straightScore_bounds {ranks : List ℤ} (hb : ∀ x ∈ ranks, 0 ≤ x ∧ x ≤ 8)
    (hs : (hasStraightInRanks ranks).1 = true) :
    7/10 ≤ straightScore ranks ∧ straightScore ranks ≤ 79/100 := by
  have hsh : 0 ≤ (hasStraightInRanks ranks).2 ∧ (hasStraightInRanks ranks).2 ≤ 8 := by
    rcases straight_high_cases hs with h | h | h
    · exact hb _ h
    · omega
    · omega
  have := rankQ_bounds hsh
  rw [straightScore]
  constructor <;> nlinarith [this.1, this.2]

theorem tripsScore_bounds {ranks : List ℤ} (hb : ∀ x ∈ ranks, 0 ≤ x ∧ x ≤ 8)
    (ht : tripRanks ranks ≠ []) :
    6/10 ≤ tripsScore ranks ∧ tripsScore ranks ≤ 69/100 := by
  have hbt := rankQ_bounds (listMax_bounds tripRanks_subset hb ht)
  rw [tripsScore]
  constructor <;> nlinarith [hbt.1, hbt.2]

theorem twoPairScore_bounds {ranks : List ℤ} (hb : ∀ x ∈ ranks, 0 ≤ x ∧ x ≤ 8)
    (h2 : 2 ≤ (pairRanks ranks).length) :
    45/100 ≤ twoPairScore ranks ∧ twoPairScore ranks ≤ 59/100 := by
  have hl : (sortDesc (pairRanks ranks)).length = (pairRanks ranks).length :=
    (List.perm_insertionSort _ _).length_eq
  have hm0 : (sortDesc (pairRanks ranks)).getD 0 0 ∈ ranks :=
    pairRanks_subset _ (mem_sortDesc.mp (getD_mem (by omega)))
  have hm1 : (sortDesc (pairRanks ranks)).getD 1 0 ∈ ranks :=
    pairRanks_subset _ (mem_sortDesc.mp (getD_mem (by omega)))
  have h0 := rankQ_bounds (hb _ hm0)
  have h1 := rankQ_bounds (hb _ hm1)
  rw [twoPairScore]
  constructor <;> nlinarith [h0.1, h0.2, h1.1, h1.2]

theorem pairScore_bounds {player_ranks ranks : List ℤ}
    (hb : ∀ x ∈ ranks, 0 ≤ x ∧ x ≤ 8) (hp : pairRanks ranks ≠ []) :
    1/4 ≤ pairScore player_ranks ranks ∧ pairScore player_ranks ranks ≤ 44/100 := by
  have hpr := rankQ_bounds (listMax_bounds pairRanks_subset hb hp)
  rw [pairScore]
  have hkick : ∀ kv : ℚ,
      (0 ≤ kv) →
      1/4 ≤ min (44/100)
          ((if listMax (pairRanks ranks) ∈ player_ranks then
              3/10 + ((listMax (pairRanks ranks) : ℚ)/8) * (12/100)
            else 1/4 + ((listMax (pairRanks ranks) : ℚ)/8) * (1/10)) + kv) ∧
        min (44/100)
          ((if listMax (pairRanks ranks) ∈ player_ranks then
              3/10 + ((listMax (pairRanks ranks) : ℚ)/8) * (12/100)
            else 1/4 + ((listMax (pairRanks ranks) : ℚ)/8) * (1/10)) + kv) ≤ 44/100 := by
    intro kv hkv
    constructor
    · apply le_min
      · norm_num
      · split_ifs <;> nlinarith [hpr.1, hpr.2]
    · exact min_le_left _ _
  rcases hk : (sortDesc (ranks.filter (fun r => ¬ r == listMax (pairRanks ranks)))).take 3
      with _ | ⟨k, ks⟩
  · simpa using hkick 0 (le_refl 0)
  · have hkmem : k ∈ ranks := by
      have h1 : k ∈ sortDesc (ranks.filter (fun r => ¬ r == listMax (pairRanks ranks))) := by
        have : k ∈ (sortDesc (ranks.filter (fun r => ¬ r == listMax (pairRanks ranks)))).take 3 := by
          rw [hk]; simp
        exact List.take_subset _ _ this
      exact (List.mem_filter.mp (mem_sortDesc.mp h1)).1
    have hkb := rankQ_bounds (hb _ hkmem)
    have hkv : (0:ℚ) ≤ (3/100) * ((k : ℚ)/8) := by nlinarith [hkb.1]
    simpa using hkick ((3/100) * ((k : ℚ)/8)) hkv

/-- Lower edge of each category score band. -/
def bandLo : ℤ → ℚ := fun c =>
  if c = 0 then 1/10 else if c = 1 then 1/4 else if c = 2 then 45/100
  else if c = 3 then 6/10 else if c = 4 then 7/10 else if c = 5 then 8/10
  else if c = 6 then 9/10 else if c = 7 then 99/100 else 0

/-- Upper edge of each category score band. -/
def bandHi : ℤ → ℚ := fun c =>
  if c = 0 then 24/100 else if c = 1 then 44/100 else if c = 2 then 59/100
  else if c = 3 then 69/100 else if c = 4 then 79/100 else if c = 5 then 89/100
  else if c = 6 then 98/100 else if c = 7 then 99/100 else 0

/-- Every classification of a list of valid cards lands inside its
category's score band. -/
theorem postflop_bands {pc cc : List ℤ} {s : ℚ} {c : ℤ}
    (hv : ∀ x ∈ pc ++ cc, 0 ≤ x ∧ x ≤ 26)
    (h : get_strength_postflop pc cc = some (s, c)) :
    0 ≤ c ∧ c ≤ 7 ∧ bandLo c ≤ s ∧ s ≤ bandHi c := by
  have hb := allRanks_bounds hv
  simp only [get_strength_postflop] at h
  split_ifs at h with h1 h2 h3 h4 h5 h6 h7
  · rw [Option.some_inj, Prod.mk.injEq] at h
    obtain ⟨rfl, rfl⟩ := h
    refine ⟨by norm_num, by norm_num, ?_, ?_⟩ <;> simp [bandLo, bandHi]
  · rw [Option.some_inj, Prod.mk.injEq] at h
    obtain ⟨rfl, rfl⟩ := h
    have := fhScore_bounds hb h2
    exact ⟨by norm_num, by norm_num, by simpa [bandLo] using this.1,
      by simpa [bandHi] using this.2⟩
  · rw [Option.some_inj, Prod.mk.injEq] at h
    obtain ⟨rfl, rfl⟩ := h
    have := flushScore_bounds hb (allRanks_length_eq pc cc) h3
    exact ⟨by norm_num, by norm_num, by simpa [bandLo] using this.1,
      by simpa [bandHi] using this.2⟩
  · rw [Option.some_inj, Prod.mk.injEq] at h
    obtain ⟨rfl, rfl⟩ := h
    have := straightScore_bounds hb h4
    exact ⟨by norm_num, by norm_num, by simpa [bandLo] using this.1,
      by simpa [bandHi] using this.2⟩
  · rw [Option.some_inj, Prod.mk.injEq] at h
    obtain ⟨rfl, rfl⟩ := h
    have := tripsScore_bounds hb h5
    exact ⟨by norm_num, by norm_num, by simpa [bandLo] using this.1,
      by simpa [bandHi] using this.2⟩
  · rw [Option.some_inj, Prod.mk.injEq] at h
    obtain ⟨rfl, rfl⟩ := h
    have := twoPairScore_bounds hb h6
    exact ⟨by norm_num, by norm_num, by simpa [bandLo] using this.1,
      by simpa [bandHi] using this.2⟩
  · rw [Option.some_inj, Prod.mk.injEq] at h
    obtain ⟨rfl, rfl⟩ := h
    have := @pairScore_bounds (pc.map get_rank) (allRanks pc cc) hb h7
    exact ⟨by norm_num, by norm_num, by simpa [bandLo] using this.1,
      by simpa [bandHi] using this.2⟩
  · rcases htop : sortDesc (allRanks pc cc) with _ | ⟨top, rest⟩
    · rw [htop] at h
      exact Option.noConfusion h
    · rw [htop] at h
      rw [Option.some_inj, Prod.mk.injEq] at h
      obtain ⟨rfl, rfl⟩ := h
      have htm : top ∈ allRanks pc cc := by
        have : top ∈ sortDesc (allRanks pc cc) := by rw [htop]; simp
        exact mem_sortDesc.mp this
      have hbt := rankQ_bounds (hb _ htm)
      refine ⟨by norm_num, by norm_num, ?_, ?_⟩
      · rw [bandLo]
        norm_num
        nlinarith [hbt.1, hbt.2]
      · rw [bandHi]
        norm_num
        nlinarith [hbt.1, hbt.2]

/-- Adjacent score bands never overlap: the top of a lower band is strictly
below the bottom of any higher band. -/
theorem bandHi_lt_bandLo {cB cA : ℤ} (h0 : 0 ≤ cB) (h7 : cA ≤ 7) (hlt : cB < cA) :
    bandHi cB < bandLo cA := by
  have hA0 : 0 ≤ cA := by omega
  have hB7 : cB ≤ 7 := by omega
  interval_cases cB <;> interval_cases cA <;> first | omega | (simp [bandLo, bandHi]; norm_num) | norm_num [bandLo, bandHi]

/-! ## Concrete classifier evaluations -/

theorem eval_pair_twos : get_strength_postflop [0, 9] [2, 4, 6] = some (129/400, 1) := by
  simp only [get_strength_postflop]
  rw [if_neg (by decide), if_neg (by decide), if_neg (by decide), if_neg (by decide),
      if_neg (by decide), if_neg (by decide), if_pos (by decide)]
  have h1 : listMax (pairRanks (allRanks [0, 9] [2, 4, 6])) = 0 := by decide
  have h2 : (sortDesc ((allRanks [0, 9] [2, 4, 6]).filter (fun r => ¬ r == (0:ℤ)))).take 3
      = [6, 4, 2] := by decide
  have h3 : (0:ℤ) ∈ List.map get_rank [0, 9] := by decide
  simp only [pairScore, h1, h2, h3, if_pos]
  rw [min_eq_right (by norm_num)]
  norm_num

theorem eval_ace_high : get_strength_postflop [0, 2] [4, 6, 17] = some (6/25, 0) := by
  simp only [get_strength_postflop]
  rw [if_neg (by decide), if_neg (by decide), if_neg (by decide), if_neg (by decide),
      if_neg (by decide), if_neg (by decide), if_neg (by decide)]
  have h1 : sortDesc (allRanks [0, 2] [4, 6, 17]) = [8, 6, 4, 2, 0] := by decide
  rw [h1]
  norm_num

theorem eval_sentinel_fullhouse :
    get_strength_postflop [0, 9] [-1, -1, -1] = some (713/800, 6) := by
  simp only [get_strength_postflop]
  rw [if_neg (by decide), if_pos (by decide)]
  have h1 : listMax (tripRanks (allRanks [0, 9] [-1, -1, -1])) = -1 := by decide
  have h2 : listMax (allPairsList (allRanks [0, 9] [-1, -1, -1])) = 0 := by decide
  have h3 : allPairsList (allRanks [0, 9] [-1, -1, -1]) ≠ [] := by decide
  rw [fhScore, if_pos h3, h1, h2]
  norm_num

theorem eval_bare_pair : get_strength_postflop [0, 9] [] = some (3/10, 1) := by
  simp only [get_strength_postflop]
  rw [if_neg (by decide), if_neg (by decide), if_neg (by decide), if_neg (by decide),
      if_neg (by decide), if_neg (by decide), if_pos (by decide)]
  have h1 : listMax (pairRanks (allRanks [0, 9] [])) = 0 := by decide
  have h2 : (sortDesc ((allRanks [0, 9] []).filter (fun r => ¬ r == (0:ℤ)))).take 3 = [] := by
    decide
  have h3 : (0:ℤ) ∈ List.map get_rank [0, 9] := by decide
  simp only [pairScore, h1, h2, h3, if_pos]
  rw [min_eq_right (by norm_num)]
  norm_num

theorem eval_straight_flush : get_strength_postflop [0, 1] [2, 3, 4] = some (99/100, 7) := by
  simp only [get_strength_postflop]
  rw [if_pos (by decide)]

theorem eval_two_trips : get_strength_postflop [7, 16] [25, 6, 15, 24, 0] = some (31/32, 6) := by
  simp only [get_strength_postflop]
  rw [if_neg (by decide), if_pos (by decide)]
  have h1 : listMax (tripRanks (allRanks [7, 16] [25, 6, 15, 24, 0])) = 7 := by decide
  have h2 : listMax (allPairsList (allRanks [7, 16] [25, 6, 15, 24, 0])) = 6 := by decide
  have h3 : allPairsList (allRanks [7, 16] [25, 6, 15, 24, 0]) ≠ [] := by decide
  rw [fhScore, if_pos h3, h1, h2]
  norm_num

theorem eval_fullhouse : get_strength_postflop [7, 16] [25, 6, 15, 0] = some (31/32, 6) := by
  simp only [get_strength_postflop]
  rw [if_neg (by decide), if_pos (by decide)]
  have h1 : listMax (tripRanks (allRanks [7, 16] [25, 6, 15, 0])) = 7 := by decide
  have h2 : listMax (allPairsList (allRanks [7, 16] [25, 6, 15, 0])) = 6 := by decide
  have h3 : allPairsList (allRanks [7, 16] [25, 6, 15, 0]) ≠ [] := by decide
  rw [fhScore, if_pos h3, h1, h2]
  norm_num

theorem eval_wheel_with_six : get_strength_postflop [0, 1] [2, 3, 13, 17] = some (149/200, 4) := by
  simp only [get_strength_postflop]
  rw [if_neg (by decide), if_neg (by decide), if_neg (by decide), if_pos (by decide)]
  have h1 : (hasStraightInRanks (allRanks [0, 1] [2, 3, 13, 17])).2 = 4 := by decide
  rw [straightScore, h1]
  norm_num

theorem eval_empty : get_strength_postflop [] [] = none := by
  simp only [get_strength_postflop]
  rw [if_neg (by decide), if_neg (by decide), if_neg (by decide), if_neg (by decide),
      if_neg (by decide), if_neg (by decide), if_neg (by decide)]
  rfl

/-! ## Claim C1 -/

/-- C1: category monotonicity of the postflop classifier — for two inputs of
valid distinct cards (2 hole cards plus community cards), a strictly higher
returned hand category forces a strictly higher returned strength score,
regardless of kickers. -/
theorem c1_category_monotonicity
    (pcA ccA pcB ccB : List ℤ) (sA sB : ℚ) (cA cB : ℤ)
    (hvA : ∀ x ∈ pcA ++ ccA, 0 ≤ x ∧ x ≤ 26) (hnA : (pcA ++ ccA).Nodup)
    (hlA : pcA.length = 2)
    (hvB : ∀ x ∈ pcB ++ ccB, 0 ≤ x ∧ x ≤ 26) (hnB : (pcB ++ ccB).Nodup)
    (hlB : pcB.length = 2)
    (hA : get_strength_postflop pcA ccA = some (sA, cA))
    (hB : get_strength_postflop pcB ccB = some (sB, cB))
    (hlt : cB < cA) : sB < sA := by
  have bA := postflop_bands hvA hA
  have bB := postflop_bands hvB hB
  have hsep := bandHi_lt_bandLo bB.1 bA.2.1 hlt
  linarith [bA.2.2.1, bB.2.2.2]

/-- Witness for C1: a pair of twos (category 1, score 129/400) against an
ace-high hand (category 0, score 6/25 = 0.24); the theorem yields
6/25 < 129/400. -/
theorem c1_category_monotonicity_witness : (6/25 : ℚ) < 129/400 :=
  c1_category_monotonicity [0, 9] [2, 4, 6] [0, 2] [4, 6, 17] (129/400) (6/25) 1 0
    (by decide) (by decide) (by decide) (by decide) (by decide) (by decide)
    eval_pair_twos eval_ace_high (by norm_num)

/-! ## Claim C2 -/

/-- C2 (code bug in the source): the -1 "no card" sentinel participates in
classification.  With hole cards [0,9] (a pair of twos) and community
[-1,-1,-1], the three sentinels count as a triple of rank -1 and the hand is
scored as a FULL_HOUSE with score 0.90 + (-1/8)·0.07 = 713/800 = 0.89125,
while the same cards with the sentinels removed score as a PAIR with 0.30 —
so the sentinels do affect the (score, category) result. -/
theorem c2_sentinel_participates :
    get_strength_postflop [0, 9] [-1, -1, -1] = some (713/800, 6) ∧
    get_strength_postflop [0, 9] [] = some (3/10, 1) ∧
    ((713/800 : ℚ), (6:ℤ)) ≠ ((3/10 : ℚ), (1:ℤ)) :=
  ⟨eval_sentinel_fullhouse, eval_bare_pair, by norm_num⟩

/-! ## Claim C3 -/

/-- C3 counterexample: on the empty input the classifier reaches
`sorted_ranks[0]` (line 251) on an empty list and raises an uncaught
IndexError, modeled as `none` — it neither returns the minimum-strength
HighCard-equivalent result nor an InsufficientCards error value. -/
theorem c3_empty_input_fails : get_strength_postflop [] [] = none := eval_empty

theorem dedupFirst_singleton (q : ℤ) : dedupFirst [q] = [q] := rfl

theorem flushSuit_singleton (t : ℤ) : flushSuit [t] = none := by
  rw [flushSuit]
  simp

theorem tripRanks_singleton (q : ℤ) : tripRanks [q] = [] := by
  rw [tripRanks, dedupFirst_singleton]
  simp

theorem pairRanks_singleton (q : ℤ) : pairRanks [q] = [] := by
  rw [pairRanks, dedupFirst_singleton]
  simp

theorem hasStraightInRanks_singleton (q : ℤ) : hasStraightInRanks [q] = (false, -1) := by
  rw [hasStraightInRanks]
  rw [show sortAsc (dedupFirst [q]) = [q] from rfl]
  rw [show findWindow [q] = none from rfl]
  rw [if_neg (by
    intro hc
    have h0 := List.mem_singleton.mp hc.1
    have h1 := List.mem_singleton.mp hc.2.1
    omega)]
  rw [if_neg (by
    intro hc
    have h0 := List.mem_singleton.mp hc.1
    have h1 := List.mem_singleton.mp hc.2.1
    omega)]

/-- A single-card input walks through every branch test and lands in the
high-card branch. -/
theorem single_card_highcard (pc cc : List ℤ) (q t : ℤ)
    (hr : allRanks pc cc = [q]) (hs : allSuits pc cc = [t]) :
    get_strength_postflop pc cc = some (1/10 + (q : ℚ)/8 * (14/100), 0) := by
  simp only [get_strength_postflop, hr, hs]
  rw [if_neg (by
    intro hc
    rw [sfCond, hasFlush, flushSuit_singleton] at hc
    simp at hc)]
  rw [if_neg (by
    intro hc
    rw [fhCond, tripRanks_singleton] at hc
    simp at hc)]
  rw [if_neg (by
    rw [hasFlush, flushSuit_singleton]
    simp)]
  rw [if_neg (by
    rw [hasStraightInRanks_singleton]
    simp)]
  rw [if_neg (by rw [tripRanks_singleton]; simp)]
  rw [if_neg (by rw [pairRanks_singleton]; simp)]
  rw [if_neg (by rw [pairRanks_singleton]; simp)]
  rw [show sortDesc [q] = [q] from rfl]

/-- C3 (amended): with exactly one valid card the classifier returns the
high-card classification (0.10 + (rank/8)·0.14, HIGH_CARD); with zero cards
it raises an uncaught IndexError (modeled as none) instead of an
InsufficientCards error returned to the caller. -/
theorem c3_single_card_highcard (pc cc : List ℤ)
    (hlen : (pc ++ cc).length = 1) (hv : ∀ x ∈ pc ++ cc, 0 ≤ x ∧ x ≤ 26) :
    get_strength_postflop pc cc
      = some (1/10 + ((get_rank ((pc ++ cc).headD 0) : ℤ) : ℚ)/8 * (14/100), 0) := by
  rcases pc with _ | ⟨c, pct⟩
  · rcases cc with _ | ⟨c, cct⟩
    · simp at hlen
    · rcases cct with _ | ⟨c2, cct2⟩
      · exact single_card_highcard [] [c] (get_rank c) (get_suit c) rfl rfl
      · simp at hlen
  · rcases pct with _ | ⟨c2, pct2⟩
    · rcases cc with _ | ⟨c2, cct⟩
      · exact single_card_highcard [c] [] (get_rank c) (get_suit c) rfl rfl
      · simp at hlen
    · simp at hlen

/-- Witness for C3 (amended) at the single ace of diamonds (card 8, rank 8):
the returned result is the high-card classification 0.10 + (8/8)·0.14. -/
theorem c3_single_card_highcard_witness :
    get_strength_postflop [8] [] = some (1/10 + ((8:ℚ))/8 * (14/100), 0) := by
  have h := c3_single_card_highcard [8] [] (by decide) (by decide)
  simp only [List.cons_append, List.nil_append, List.headD_cons] at h
  rw [show get_rank 8 = 8 from by decide] at h
  exact_mod_cast h

/-! ## Claim C4 -/

theorem nodup_tripRanks (ranks : List ℤ) : (tripRanks ranks).Nodup :=
  List.Nodup.filter _ (nodup_dedupFirst ranks)

/-- Whenever the full-house guard passes, the combined pair list (genuine
pairs plus demoted trips) is nonempty, so the 0.08 fallback branch of the
full-house scorer is unreachable. -/
theorem allPairsList_ne_nil {ranks : List ℤ} (hc : fhCond ranks) :
    allPairsList ranks ≠ [] := by
  rcases hc with ⟨ht, hor⟩
  rcases hor with hlen | hp
  · have hnd := nodup_tripRanks ranks
    rcases hl : tripRanks ranks with _ | ⟨a, _ | ⟨b, rest⟩⟩
    · exact absurd hl ht
    · rw [hl] at hlen; simp at hlen
    · rw [hl] at hnd
      have hab : a ≠ b := by
        intro hab
        rw [hab] at hnd
        simp at hnd
      by_cases hamax : a = listMax (tripRanks ranks)
      · have hbmem : b ∈ allPairsList ranks := by
          rw [allPairsList]
          refine List.mem_append.mpr (Or.inr (List.mem_filter.mpr ⟨by rw [hl]; simp, ?_⟩))
          simp [← hamax, hab.symm]
        exact List.ne_nil_of_mem hbmem
      · have hamem : a ∈ allPairsList ranks := by
          rw [allPairsList]
          refine List.mem_append.mpr (Or.inr (List.mem_filter.mpr ⟨by rw [hl]; simp, ?_⟩))
          simp [hamax]
        exact List.ne_nil_of_mem hamem
  · rcases List.exists_mem_of_ne_nil _ hp with ⟨p, hpm⟩
    exact List.ne_nil_of_mem (List.mem_append.mpr (Or.inl hpm))

/-- Category 6 is produced only by the full-house branch, and its score is
always the two-term 0.07/0.01 formula. -/
theorem postflop_cat6 {pc cc : List ℤ} {s : ℚ}
    (h : get_strength_postflop pc cc = some (s, 6)) :
    fhCond (allRanks pc cc) ∧
      s = 9/10 + ((listMax (tripRanks (allRanks pc cc)) : ℚ)/8) * (7/100)
            + ((listMax (allPairsList (allRanks pc cc)) : ℚ)/8) * (1/100) := by
  simp only [get_strength_postflop] at h
  split_ifs at h with h1 h2 h3 h4 h5 h6 h7
  · rw [Option.some_inj, Prod.mk.injEq] at h
    exact absurd h.2 (by norm_num)
  · rw [Option.some_inj, Prod.mk.injEq] at h
    refine ⟨h2, ?_⟩
    rw [← h.1, fhScore, if_pos (allPairsList_ne_nil h2)]
  · rw [Option.some_inj, Prod.mk.injEq] at h
    exact absurd h.2 (by norm_num)
  · rw [Option.some_inj, Prod.mk.injEq] at h
    exact absurd h.2 (by norm_num)
  · rw [Option.some_inj, Prod.mk.injEq] at h
    exact absurd h.2 (by norm_num)
  · rw [Option.some_inj, Prod.mk.injEq] at h
    exact absurd h.2 (by norm_num)
  · rw [Option.some_inj, Prod.mk.injEq] at h
    exact absurd h.2 (by norm_num)
  · rcases htop : sortDesc (allRanks pc cc) with _ | ⟨top, rest⟩
    · rw [htop] at h
      exact Option.noConfusion h
    · rw [htop] at h
      rw [Option.some_inj, Prod.mk.injEq] at h
      exact absurd h.2 (by norm_num)

/-- C4 counterexample: hole [7,16] and community [25,6,15,24,0] hold two
sets of trips (ranks 7 and 6) and no genuine pair; the code scores this
full house 0.90 + (7/8)·0.07 + (6/8)·0.01 = 31/32 = 0.96875, not the
0.90 + (7/8)·0.08 = 0.97 the claim asserts for that case. -/
theorem c4_two_trips_counterexample :
    tripRanks (allRanks [7, 16] [25, 6, 15, 24, 0]) = [7, 6] ∧
    pairRanks (allRanks [7, 16] [25, 6, 15, 24, 0]) = [] ∧
    get_strength_postflop [7, 16] [25, 6, 15, 24, 0] = some (31/32, 6) ∧
    (31/32 : ℚ) ≠ 9/10 + (7/8) * (8/100) :=
  ⟨by decide, by decide, eval_two_trips, by norm_num⟩

/-- C4 (amended): every FullHouse classification scores
0.90 + (best_trip/8)·0.07 + (best_secondary/8)·0.01, where best_secondary
is the maximum over the genuine pairs and the trips ranks other than the
best trip; when the only secondary holding is a second set of trips, that
trips rank fills the pair role in the same formula (the
0.90 + (best_trip/8)·0.08 fallback is dead code). -/
theorem c4_fullhouse_score (pc cc : List ℤ) (s : ℚ)
    (h : get_strength_postflop pc cc = some (s, 6)) :
    s = 9/10 + ((listMax (tripRanks (allRanks pc cc)) : ℚ)/8) * (7/100)
          + ((listMax (allPairsList (allRanks pc cc)) : ℚ)/8) * (1/100) :=
  (postflop_cat6 h).2

/-- Witness for C4 (amended): the genuine full house nines-over-eights
(hole [7,16], community [25,6,15,0]) scores 31/32 by the formula. -/
theorem c4_fullhouse_score_witness :
    (31/32 : ℚ) = 9/10 + ((listMax (tripRanks (allRanks [7, 16] [25, 6, 15, 0])) : ℚ)/8) * (7/100)
      + ((listMax (allPairsList (allRanks [7, 16] [25, 6, 15, 0])) : ℚ)/8) * (1/100) :=
  c4_fullhouse_score [7, 16] [25, 6, 15, 0] (31/32) eval_fullhouse

/-! ## Claim C5 -/

/-- Category 7 is produced only by the straight-flush branch, which always
scores exactly 0.99. -/
theorem postflop_cat7 {pc cc : List ℤ} {s : ℚ}
    (h : get_strength_postflop pc cc = some (s, 7)) : s = 99/100 := by
  simp only [get_strength_postflop] at h
  split_ifs at h with h1 h2 h3 h4 h5 h6 h7
  · rw [Option.some_inj, Prod.mk.injEq] at h
    exact h.1.symm
  · rw [Option.some_inj, Prod.mk.injEq] at h
    exact absurd h.2 (by norm_num)
  · rw [Option.some_inj, Prod.mk.injEq] at h
    exact absurd h.2 (by norm_num)
  · rw [Option.some_inj, Prod.mk.injEq] at h
    exact absurd h.2 (by norm_num)
  · rw [Option.some_inj, Prod.mk.injEq] at h
    exact absurd h.2 (by norm_num)
  · rw [Option.some_inj, Prod.mk.injEq] at h
    exact absurd h.2 (by norm_num)
  · rw [Option.some_inj, Prod.mk.injEq] at h
    exact absurd h.2 (by norm_num)
  · rcases htop : sortDesc (allRanks pc cc) with _ | ⟨top, rest⟩
    · rw [htop] at h
      exact Option.noConfusion h
    · rw [htop] at h
      rw [Option.some_inj, Prod.mk.injEq] at h
      exact absurd h.2 (by norm_num)

/-- C5: straight-flush supremacy — every StraightFlush classification scores
exactly 0.99 regardless of rank, every FullHouse classification scores at
most 0.98, and the former strictly exceeds the latter. -/
theorem c5_straight_flush_supremacy
    (pcA ccA pcB ccB : List ℤ) (sA sB : ℚ)
    (hA : get_strength_postflop pcA ccA = some (sA, 7))
    (hB : get_strength_postflop pcB ccB = some (sB, 6)) :
    sA = 99/100 ∧ sB ≤ 98/100 ∧ sB < sA := by
  have h7 := postflop_cat7 hA
  have h6 := postflop_cat6 hB
  have hbt : (listMax (tripRanks (allRanks pcB ccB)) : ℚ) ≤ 8 := by
    exact_mod_cast listMax_le (by norm_num)
      (fun x hx => allRanks_le x (tripRanks_subset x hx))
  have hbp : (listMax (allPairsList (allRanks pcB ccB)) : ℚ) ≤ 8 := by
    exact_mod_cast listMax_le (by norm_num)
      (fun x hx => allRanks_le x (allPairsList_subset x hx))
  have hle : sB ≤ 98/100 := by
    rw [h6.2]
    nlinarith
  exact ⟨h7, hle, by rw [h7]; linarith⟩

/-- Witness for C5: the 2-6 straight flush of diamonds against the full
house nines-over-eights (31/32 = 0.96875). -/
theorem c5_straight_flush_supremacy_witness :
    (99/100 : ℚ) = 99/100 ∧ (31/32 : ℚ) ≤ 98/100 ∧ (31/32 : ℚ) < 99/100 :=
  c5_straight_flush_supremacy [0, 1] [2, 3, 4] [7, 16] [25, 6, 15, 0] (99/100) (31/32)
    eval_straight_flush eval_fullhouse

/-! ## Claim C6 -/

/-- C6 counterexample: hole [0,1] and community [2,3,13,17] hold the wheel
ranks {0,1,2,3,8} with no flush and no full house, yet because rank 4 is
also present the window scan finds the 2-6 straight first and returns
(0.745, Straight) — not straight-high 3 with score 0.70 + (3/8)·0.09 =
0.73375 as the claim asserts for every hand whose ranks include the wheel. -/
theorem c6_wheel_counterexample :
    ((0:ℤ) ∈ allRanks [0, 1] [2, 3, 13, 17] ∧ (1:ℤ) ∈ allRanks [0, 1] [2, 3, 13, 17] ∧
      (2:ℤ) ∈ allRanks [0, 1] [2, 3, 13, 17] ∧ (3:ℤ) ∈ allRanks [0, 1] [2, 3, 13, 17] ∧
      (8:ℤ) ∈ allRanks [0, 1] [2, 3, 13, 17]) ∧
    hasFlush (allSuits [0, 1] [2, 3, 13, 17]) = false ∧
    ¬ fhCond (allRanks [0, 1] [2, 3, 13, 17]) ∧
    get_strength_postflop [0, 1] [2, 3, 13, 17] = some (149/200, 4) ∧
    (149/200 : ℚ) ≠ 7/10 + (3/8) * (9/100) :=
  ⟨by decide, by decide, by decide, eval_wheel_with_six, by norm_num⟩

/-- C6 (amended): the wheel case additionally requires rank 4 (the card six)
to be absent, and the Ace-high case rank 3 (the card five) to be absent —
otherwise the top-down window scan finds a lower 5-run first.  With those
exclusions, hands of valid cards whose ranks include {0,1,2,3,8} (resp.
{4,5,6,7,8}) and to which no flush, straight flush or full house applies are
classified Straight with high card 3 and score 0.70 + (3/8)·0.09 (resp.
high card 8 and score 0.70 + (8/8)·0.09 = 0.79). -/
theorem c6_wheel_and_acehigh_straights :
    (∀ pc cc : List ℤ, (∀ x ∈ pc ++ cc, 0 ≤ x ∧ x ≤ 26) →
      (0:ℤ) ∈ allRanks pc cc → (1:ℤ) ∈ allRanks pc cc → (2:ℤ) ∈ allRanks pc cc →
      (3:ℤ) ∈ allRanks pc cc → (8:ℤ) ∈ allRanks pc cc → (4:ℤ) ∉ allRanks pc cc →
      hasFlush (allSuits pc cc) = false → ¬ fhCond (allRanks pc cc) →
      get_strength_postflop pc cc = some (7/10 + (3/8) * (9/100), 4)) ∧
    (∀ pc cc : List ℤ, (∀ x ∈ pc ++ cc, 0 ≤ x ∧ x ≤ 26) →
      (4:ℤ) ∈ allRanks pc cc → (5:ℤ) ∈ allRanks pc cc → (6:ℤ) ∈ allRanks pc cc →
      (7:ℤ) ∈ allRanks pc cc → (8:ℤ) ∈ allRanks pc cc → (3:ℤ) ∉ allRanks pc cc →
      hasFlush (allSuits pc cc) = false → ¬ fhCond (allRanks pc cc) →
      get_strength_postflop pc cc = some (7/10 + (8/8) * (9/100), 4)) := by
  constructor
  · intro pc cc hv m0 m1 m2 m3 m8 n4 hflush hfh
    have hb := allRanks_bounds hv
    have hstr := wheel_straight hb m0 m1 m2 m3 m8 n4
    simp only [get_strength_postflop]
    rw [if_neg (fun hc => by rw [sfCond, hflush] at hc; simp at hc)]
    rw [if_neg hfh]
    rw [if_neg (by rw [hflush]; exact Bool.false_ne_true)]
    rw [if_pos (by rw [hstr])]
    rw [straightScore, hstr]
    norm_num
  · intro pc cc hv m4 m5 m6 m7 m8 n3 hflush hfh
    have hb := allRanks_bounds hv
    have hstr := acehigh_straight hb m4 m5 m6 m7 m8 n3
    simp only [get_strength_postflop]
    rw [if_neg (fun hc => by rw [sfCond, hflush] at hc; simp at hc)]
    rw [if_neg hfh]
    rw [if_neg (by rw [hflush]; exact Bool.false_ne_true)]
    rw [if_pos (by rw [hstr])]
    rw [straightScore, hstr]
    norm_num

/-- Witness for C6 (amended): the pure wheel [0,1]+[2,3,17] scores 0.73375
and the pure Ace-high straight [4,5]+[6,7,17] scores 0.79. -/
theorem c6_wheel_and_acehigh_straights_witness :
    get_strength_postflop [0, 1] [2, 3, 17] = some (7/10 + (3/8) * (9/100), 4) ∧
    get_strength_postflop [4, 5] [6, 7, 17] = some (7/10 + (8/8) * (9/100), 4) :=
  ⟨c6_wheel_and_acehigh_straights.1 [0, 1] [2, 3, 17] (by decide) (by decide) (by decide)
      (by decide) (by decide) (by decide) (by decide) (by decide) (by decide),
    c6_wheel_and_acehigh_straights.2 [4, 5] [6, 7, 17] (by decide) (by decide) (by decide)
      (by decide) (by decide) (by decide) (by decide) (by decide) (by decide)⟩

/-! ## Claim C7 -/

theorem sortDesc_pair (x y : ℤ) : sortDesc [x, y] = if y ≤ x then [x, y] else [y, x] := by
  by_cases h : y ≤ x
  · simp [sortDesc, List.insertionSort, List.orderedInsert, h, ge_iff_le]
  · simp [sortDesc, List.insertionSort, List.orderedInsert, h, ge_iff_le]

theorem listMax_pair {x y : ℤ} (hx : -10 ≤ x) : listMax [x, y] = max x y := by
  rw [listMax]
  simp only [List.foldl]
  rw [max_eq_right hx]

theorem listMin_pair {x y : ℤ} (hx : x ≤ 100) : listMin [x, y] = min x y := by
  rw [listMin]
  simp only [List.foldl]
  rw [min_eq_right hx]

theorem is_suited_pair (a b : ℤ) : is_suited [a, b] = (get_suit b == get_suit a) := by
  rw [is_suited]
  simp

theorem int_beq_comm (x y : ℤ) : (x == y) = (y == x) := by
  by_cases h : x = y
  · simp [h]
  · simp [h, Ne.symm h]

/-- C7: preflop table exactness — for every input of exactly two valid
distinct cards, `get_strength_preflop` returns exactly the closed-form
table value stated by the claim (`preflopTableSpec`). -/
theorem c7_preflop_table (a b : ℤ)
    (ha0 : 0 ≤ a) (ha1 : a ≤ 26) (hb0 : 0 ≤ b) (hb1 : b ≤ 26) (hab : a ≠ b) :
    get_strength_preflop [a, b] =
      preflopTableSpec (get_rank a) (get_rank b) (get_suit a == get_suit b) := by
  have hra := get_rank_ge a
  have hrb := get_rank_ge b
  have hra8 := get_rank_le a
  have hrb8 := get_rank_le b
  rw [get_strength_preflop, if_neg (by simp)]
  rw [show List.map get_rank [a, b] = [get_rank a, get_rank b] from rfl]
  rw [sortDesc_pair, listMax_pair (by omega), listMin_pair (by omega)]
  rw [is_suited_pair, int_beq_comm (get_suit b) (get_suit a)]
  rw [preflopTableSpec]
  by_cases hpair : get_rank a = get_rank b
  · rw [if_pos (le_of_eq hpair.symm)]
    simp only [List.getD_cons_zero, List.getD_cons_succ]
    rw [if_pos hpair, if_pos hpair]
  · have hminmax := min_le_max (a := get_rank a) (b := get_rank b)
    have hiff : ((max (get_rank a) (get_rank b) - min (get_rank a) (get_rank b)).natAbs = 1
          ∧ 6 ≤ max (get_rank a) (get_rank b)) ↔
        (max (get_rank a) (get_rank b) - min (get_rank a) (get_rank b) = 1
          ∧ 6 ≤ max (get_rank a) (get_rank b)) := by
      constructor
      · intro ⟨h1, h2⟩
        exact ⟨by omega, h2⟩
      · intro ⟨h1, h2⟩
        exact ⟨by omega, h2⟩
    rcases le_or_lt (get_rank b) (get_rank a) with hcmp | hcmp
    · rw [if_pos hcmp]
      simp only [List.getD_cons_zero, List.getD_cons_succ]
      rw [if_neg (fun hc => hpair hc), if_neg hpair]
      rw [max_eq_left hcmp, min_eq_right hcmp] at hiff ⊢
      simp only [hiff]
    · have hcmp2 : ¬ (get_rank b ≤ get_rank a) := by omega
      rw [if_neg hcmp2]
      simp only [List.getD_cons_zero, List.getD_cons_succ]
      rw [if_neg (fun hc => hpair hc.symm), if_neg hpair]
      rw [max_eq_right (by omega), min_eq_left (by omega)] at hiff ⊢
      simp only [hiff]

/-- Witness for C7 at the pair of aces (cards 8 and 17). -/
theorem c7_preflop_table_witness :
    get_strength_preflop [8, 17] =
      preflopTableSpec (get_rank 8) (get_rank 17) (get_suit 8 == get_suit 17) :=
  c7_preflop_table 8 17 (by decide) (by decide) (by decide) (by decide) (by decide)

/-! ## Claim C8 -/

/-- C8 counterexample: `get_rank` / `get_suit` perform no range check — on
the out-of-range card id 27 they return the alias value (0, 3) instead of
failing with InvalidInput. -/
theorem c8_no_range_check : get_rank 27 = 0 ∧ get_suit 27 = 3 ∧ (26 : ℤ) < 27 :=
  ⟨by decide, by decide, by decide⟩

/-- C8 (amended): the decode functions are total — for every card id other
than the -1 sentinel they return (card mod 9, card div 9) with no range
validation (so every id, also one outside [0,26], yields a value), and on
[0,26] they are the exact inverse of encode = suit·9 + rank, with rank in
[0,8] and suit in [0,2]. -/
theorem c8_decode_total_and_inverse :
    (∀ c : ℤ, c ≠ -1 → get_rank c = c % 9 ∧ get_suit c = c / 9) ∧
    (∀ c : ℤ, 0 ≤ c → c ≤ 26 →
      get_suit c * 9 + get_rank c = c ∧
      0 ≤ get_rank c ∧ get_rank c ≤ 8 ∧ 0 ≤ get_suit c ∧ get_suit c ≤ 2) ∧
    (∀ r sIdx : ℤ, 0 ≤ r → r ≤ 8 → 0 ≤ sIdx → sIdx ≤ 2 →
      get_rank (sIdx * 9 + r) = r ∧ get_suit (sIdx * 9 + r) = sIdx) := by
  refine ⟨?_, ?_, ?_⟩
  · intro c hc
    rw [get_rank, get_suit, if_neg hc, if_neg hc]
    exact ⟨rfl, rfl⟩
  · intro c hc0 hc1
    have hne : c ≠ -1 := by omega
    rw [get_rank, get_suit, if_neg hne, if_neg hne]
    omega
  · intro r sIdx hr0 hr1 hs0 hs1
    have hne : sIdx * 9 + r ≠ -1 := by omega
    rw [get_rank, get_suit, if_neg hne, if_neg hne]
    omega

/-- Witness for C8 (amended) at card 22 = spade six (rank 4, suit 2). -/
theorem c8_decode_total_and_inverse_witness :
    (get_rank 22 = 22 % 9 ∧ get_suit 22 = 22 / 9) ∧
    (get_suit 22 * 9 + get_rank 22 = 22 ∧
      0 ≤ get_rank 22 ∧ get_rank 22 ≤ 8 ∧ 0 ≤ get_suit 22 ∧ get_suit 22 ≤ 2) ∧
    (get_rank (2 * 9 + 4) = 4 ∧ get_suit (2 * 9 + 4) = 2) :=
  ⟨c8_decode_total_and_inverse.1 22 (by decide),
   c8_decode_total_and_inverse.2.1 22 (by decide) (by decide),
   c8_decode_total_and_inverse.2.2 4 2 (by decide) (by decide) (by decide) (by decide)⟩

/-! ## Claim C9 -/

theorem bw_fold_best_mono (community : List ℤ) :
    ∀ (l : List (ℤ × ℤ)) (st : HandResult × HandResult),
    st.1.strength ≤ (l.foldl (bw_step community) st).1.strength := by
  intro l
  induction l with
  | nil => intro st; exact le_refl _
  | cons p ps ih =>
    intro st
    rw [List.foldl_cons]
    refine le_trans ?_ (ih (bw_step community st p))
    rw [bw_step]
    dsimp only
    split_ifs with h
    · exact le_of_lt h
    · exact le_refl _

theorem bw_fold_worst_mono (community : List ℤ) :
    ∀ (l : List (ℤ × ℤ)) (st : HandResult × HandResult),
    (l.foldl (bw_step community) st).2.strength ≤ st.2.strength := by
  intro l
  induction l with
  | nil => intro st; exact le_refl _
  | cons p ps ih =>
    intro st
    rw [List.foldl_cons]
    refine le_trans (ih (bw_step community st p)) ?_
    rw [bw_step]
    dsimp only
    split_ifs with h
    · exact le_of_lt h
    · exact le_refl _

theorem bw_fold_best_ub (community : List ℤ) :
    ∀ (l : List (ℤ × ℤ)) (st : HandResult × HandResult), ∀ p ∈ l,
    pairStrength community p ≤ (l.foldl (bw_step community) st).1.strength := by
  intro l
  induction l with
  | nil => intro st p hp; cases hp
  | cons q qs ih =>
    intro st p hp
    rw [List.foldl_cons]
    rcases List.mem_cons.mp hp with rfl | hmem
    · refine le_trans ?_ (bw_fold_best_mono community qs (bw_step community st p))
      rw [bw_step]
      dsimp only
      split_ifs with h
      · exact le_refl _
      · exact not_lt.mp h
    · exact ih (bw_step community st q) p hmem

theorem bw_fold_worst_lb (community : List ℤ) :
    ∀ (l : List (ℤ × ℤ)) (st : HandResult × HandResult), ∀ p ∈ l,
    (l.foldl (bw_step community) st).2.strength ≤ pairStrength community p := by
  intro l
  induction l with
  | nil => intro st p hp; cases hp
  | cons q qs ih =>
    intro st p hp
    rw [List.foldl_cons]
    rcases List.mem_cons.mp hp with rfl | hmem
    · refine le_trans (bw_fold_worst_mono community qs (bw_step community st p)) ?_
      rw [bw_step]
      dsimp only
      split_ifs with h
      · exact le_refl _
      · exact not_lt.mp h
    · exact ih (bw_step community st q) p hmem

theorem bw_fold_best_attain (community : List ℤ) :
    ∀ (l : List (ℤ × ℤ)) (st : HandResult × HandResult),
    (l.foldl (bw_step community) st).1 = st.1 ∨
    ∃ p ∈ l, (l.foldl (bw_step community) st).1.strength = pairStrength community p := by
  intro l
  induction l with
  | nil => intro st; exact Or.inl rfl
  | cons q qs ih =>
    intro st
    rw [List.foldl_cons]
    rcases ih (bw_step community st q) with heq | ⟨p, hp, hs⟩
    · rw [heq, bw_step]
      dsimp only
      split_ifs with h
      · exact Or.inr ⟨q, by simp, rfl⟩
      · exact Or.inl rfl
    · exact Or.inr ⟨p, List.mem_cons_of_mem _ hp, hs⟩

theorem bw_fold_worst_attain (community : List ℤ) :
    ∀ (l : List (ℤ × ℤ)) (st : HandResult × HandResult),
    (l.foldl (bw_step community) st).2 = st.2 ∨
    ∃ p ∈ l, (l.foldl (bw_step community) st).2.strength = pairStrength community p := by
  intro l
  induction l with
  | nil => intro st; exact Or.inl rfl
  | cons q qs ih =>
    intro st
    rw [List.foldl_cons]
    rcases ih (bw_step community st q) with heq | ⟨p, hp, hs⟩
    · rw [heq, bw_step]
      dsimp only
      split_ifs with h
      · exact Or.inr ⟨q, by simp, rfl⟩
      · exact Or.inl rfl
    · exact Or.inr ⟨p, List.mem_cons_of_mem _ hp, hs⟩

theorem deckOrder_nodup : deckOrder.Nodup := by decide

theorem deckOrder_bounds : ∀ c ∈ deckOrder, 0 ≤ c ∧ c ≤ 26 := by decide

theorem mem_deckOrder {c : ℤ} (h0 : 0 ≤ c) (h1 : c ≤ 26) : c ∈ deckOrder := by
  interval_cases c <;> decide

theorem remainingCards_length {community : List ℤ} (hn : community.Nodup)
    (hv : ∀ x ∈ community, 0 ≤ x ∧ x ≤ 26) :
    (remainingCards community).length = 27 - community.length := by
  have hperm : List.Perm (deckOrder.filter (fun c => decide (c ∈ community))) community := by
    apply (List.perm_ext_iff_of_nodup (List.Nodup.filter _ deckOrder_nodup) hn).mpr
    intro x
    simp only [List.mem_filter, decide_eq_true_eq]
    constructor
    · exact fun h => h.2
    · intro hx
      exact ⟨mem_deckOrder (hv x hx).1 (hv x hx).2, hx⟩
  have hsplit := (List.filter_append_perm (fun c => decide (c ∈ community)) deckOrder).length_eq
  have hlen27 : deckOrder.length = 27 := by decide
  rw [List.length_append] at hsplit
  have h2 := hperm.length_eq
  have h3 : remainingCards community
      = deckOrder.filter (fun c => !decide (c ∈ community)) := by
    rw [remainingCards]
    simp only [decide_not]
  rw [h3]
  omega

theorem holePairs_length : ∀ l : List ℤ, (holePairs l).length = Nat.choose l.length 2 := by
  intro l
  induction l with
  | nil => rfl
  | cons x xs ih =>
    rw [holePairs, List.length_append, List.length_map, ih, List.length_cons,
      Nat.choose_succ_succ, Nat.choose_one_right]

theorem holePairs_mem : ∀ {l : List ℤ} {p : ℤ × ℤ}, p ∈ holePairs l → p.1 ∈ l ∧ p.2 ∈ l := by
  intro l
  induction l with
  | nil => intro p hp; cases hp
  | cons x xs ih =>
    intro p hp
    rw [holePairs] at hp
    rcases List.mem_append.mp hp with h | h
    · rcases List.mem_map.mp h with ⟨y, hy, rfl⟩
      exact ⟨by simp, List.mem_cons_of_mem _ hy⟩
    · rcases ih h with ⟨h1, h2⟩
      exact ⟨List.mem_cons_of_mem _ h1, List.mem_cons_of_mem _ h2⟩

theorem sortDesc_eq_nil {l : List ℤ} (h : sortDesc l = []) : l = [] := by
  have := (List.perm_insertionSort (· ≥ ·) l).length_eq
  rw [show List.insertionSort (· ≥ ·) l = sortDesc l from rfl, h] at this
  exact List.length_eq_zero.mp this.symm

theorem postflop_isSome {pc cc : List ℤ} (hne : pc ≠ []) :
    (get_strength_postflop pc cc).isSome = true := by
  simp only [get_strength_postflop]
  split_ifs <;> try simp
  rcases htop : sortDesc (allRanks pc cc) with _ | ⟨top, rest⟩
  · exfalso
    have := sortDesc_eq_nil htop
    rw [allRanks] at this
    rcases List.append_eq_nil.mp this with ⟨h1, _⟩
    exact hne (List.map_eq_nil.mp h1)
  · simp [htop]

theorem bandLo_ge {c : ℤ} (h0 : 0 ≤ c) (h7 : c ≤ 7) : 1/10 ≤ bandLo c := by
  interval_cases c <;> norm_num [bandLo]

theorem bandHi_le {c : ℤ} (h0 : 0 ≤ c) (h7 : c ≤ 7) : bandHi c ≤ 99/100 := by
  interval_cases c <;> norm_num [bandHi]

theorem pairStrength_bounds {community : List ℤ} {p : ℤ × ℤ}
    (hv : ∀ x ∈ community, 0 ≤ x ∧ x ≤ 26)
    (hp1 : 0 ≤ p.1 ∧ p.1 ≤ 26) (hp2 : 0 ≤ p.2 ∧ p.2 ≤ 26) :
    1/10 ≤ pairStrength community p ∧ pairStrength community p ≤ 99/100 := by
  have hsome := @postflop_isSome [p.1, p.2] community (by simp)
  rcases Option.isSome_iff_exists.mp hsome with ⟨⟨s, c⟩, hsc⟩
  have hvall : ∀ x ∈ [p.1, p.2] ++ community, 0 ≤ x ∧ x ≤ 26 := by
    intro x hx
    rcases List.mem_append.mp hx with h | h
    · rcases List.mem_cons.mp h with rfl | h
      · exact hp1
      · rcases List.mem_cons.mp h with rfl | h
        · exact hp2
        · cases h
    · exact hv x h
  have hb := postflop_bands hvall hsc
  have hps : pairStrength community p = s := by
    rw [pairStrength, hsc]
    rfl
  rw [hps]
  constructor
  · linarith [bandLo_ge hb.1 hb.2.1, hb.2.2.1]
  · linarith [bandHi_le hb.1 hb.2.1, hb.2.2.2]

theorem enumerator_extremality (community : List ℤ) (hn : community.Nodup)
    (hv : ∀ x ∈ community, 0 ≤ x ∧ x ≤ 26) (hk : community.length ≤ 5) :
    (holePairs (remainingCards community)).length = Nat.choose (27 - community.length) 2 ∧
    (∀ p ∈ holePairs (remainingCards community),
        pairStrength community p ≤ (best_and_worst_hands community).1.strength ∧
        (best_and_worst_hands community).2.strength ≤ pairStrength community p) ∧
    (∃ p ∈ holePairs (remainingCards community),
        pairStrength community p = (best_and_worst_hands community).1.strength) ∧
    (∃ p ∈ holePairs (remainingCards community),
        pairStrength community p = (best_and_worst_hands community).2.strength) := by
  have hcount : (holePairs (remainingCards community)).length
      = Nat.choose (27 - community.length) 2 := by
    rw [holePairs_length, remainingCards_length hn hv]
  have hbnds : ∀ p ∈ holePairs (remainingCards community),
      1/10 ≤ pairStrength community p ∧ pairStrength community p ≤ 99/100 := by
    intro p hp
    have hm := holePairs_mem hp
    have h1 := deckOrder_bounds p.1 (List.mem_of_mem_filter hm.1)
    have h2 := deckOrder_bounds p.2 (List.mem_of_mem_filter hm.2)
    exact pairStrength_bounds hv h1 h2
  have hne : holePairs (remainingCards community) ≠ [] := by
    intro hnil
    rw [hnil] at hcount
    have hpos : 0 < Nat.choose (27 - community.length) 2 :=
      Nat.choose_pos (by omega)
    simp at hcount
    omega
  refine ⟨hcount, ?_, ?_, ?_⟩
  · intro p hp
    rw [best_and_worst_hands]
    exact ⟨bw_fold_best_ub community _ _ p hp, bw_fold_worst_lb community _ _ p hp⟩
  · rcases bw_fold_best_attain community (holePairs (remainingCards community))
        (initBest, initWorst) with heq | ⟨p, hp, hs⟩
    · exfalso
      rcases List.exists_mem_of_ne_nil _ hne with ⟨p0, hp0⟩
      have hub := bw_fold_best_ub community (holePairs (remainingCards community))
        (initBest, initWorst) p0 hp0
      rw [heq] at hub
      have := (hbnds p0 hp0).1
      rw [show (initBest, initWorst).1 = initBest from rfl] at hub
      rw [initBest] at hub
      simp only at hub
      linarith
    · exact ⟨p, hp, by rw [best_and_worst_hands, hs]⟩
  · rcases bw_fold_worst_attain community (holePairs (remainingCards community))
        (initBest, initWorst) with heq | ⟨p, hp, hs⟩
    · exfalso
      rcases List.exists_mem_of_ne_nil _ hne with ⟨p0, hp0⟩
      have hlb := bw_fold_worst_lb community (holePairs (remainingCards community))
        (initBest, initWorst) p0 hp0
      rw [heq] at hlb
      have := (hbnds p0 hp0).2
      rw [show (initBest, initWorst).2 = initWorst from rfl] at hlb
      rw [initWorst] at hlb
      simp only at hlb
      linarith
    · exact ⟨p, hp, by rw [best_and_worst_hands, hs]⟩

/-- C9: enumerator exhaustiveness and extremality — for every board of k
distinct valid community cards (k ≤ 5), the range enumerator examines
exactly C(27-k, 2) unordered hole-card pairs from the remaining deck, the
best-hand strength it returns is the maximum of the classifier's strength
over all those pairs (≥ every candidate, attained by one), and the
worst-hand strength is the minimum. -/
theorem c9_range_enumerator (community : List ℤ) (hn : community.Nodup)
    (hv : ∀ x ∈ community, 0 ≤ x ∧ x ≤ 26) (hk : community.length ≤ 5) :
    (holePairs (remainingCards community)).length = Nat.choose (27 - community.length) 2 ∧
    (∀ p ∈ holePairs (remainingCards community),
        pairStrength community p ≤ (best_and_worst_hands community).1.strength ∧
        (best_and_worst_hands community).2.strength ≤ pairStrength community p) ∧
    (∃ p ∈ holePairs (remainingCards community),
        pairStrength community p = (best_and_worst_hands community).1.strength) ∧
    (∃ p ∈ holePairs (remainingCards community),
        pairStrength community p = (best_and_worst_hands community).2.strength) :=
  enumerator_extremality community hn hv hk

/-- Witness for C9 at the 3-card board [0,1,2]: the enumerator examines
C(24,2) pairs and returns the extremal strengths. -/
theorem c9_range_enumerator_witness :
    (holePairs (remainingCards [0, 1, 2])).length
        = Nat.choose (27 - ([0, 1, 2] : List ℤ).length) 2 ∧
    (∀ p ∈ holePairs (remainingCards [0, 1, 2]),
        pairStrength [0, 1, 2] p ≤ (best_and_worst_hands [0, 1, 2]).1.strength ∧
        (best_and_worst_hands [0, 1, 2]).2.strength ≤ pairStrength [0, 1, 2] p) ∧
    (∃ p ∈ holePairs (remainingCards [0, 1, 2]),
        pairStrength [0, 1, 2] p = (best_and_worst_hands [0, 1, 2]).1.strength) ∧
    (∃ p ∈ holePairs (remainingCards [0, 1, 2]),
        pairStrength [0, 1, 2] p = (best_and_worst_hands [0, 1, 2]).2.strength) :=
  c9_range_enumerator [0, 1, 2] (by decide) (by decide) (by decide)

/-! ## Claim C10 -/

/-- C10 (spec-modelled): totality and the degenerate case of the equity
simulator — for every input the result is in [0,1]; with fewer than 2 unseen
cards it is the fixed neutral 0.5; otherwise it equals the accumulated
win/tie/loss score divided by the trial count, clamped to [0,1]. -/
theorem c10_equity_total_and_degenerate :
    ∀ (hole community oppKnown : List ℤ) (draws : List (List ℤ)),
      (0 ≤ simulate_equity hole community oppKnown draws ∧
        simulate_equity hole community oppKnown draws ≤ 1) ∧
      ((unseenCards hole community oppKnown).length < 2 →
        simulate_equity hole community oppKnown draws = 1/2) ∧
      (2 ≤ (unseenCards hole community oppKnown).length →
        simulate_equity hole community oppKnown draws =
          clamp01 (((draws.map (trialScore hole community oppKnown)).sum)
            / (draws.length : ℚ))) := by
  intro hole community oppKnown draws
  refine ⟨?_, ?_, ?_⟩
  · rw [simulate_equity]
    split_ifs with h
    · norm_num
    · constructor
      · exact le_max_left 0 _
      · rw [clamp01]
        exact max_le (by norm_num) (min_le_left _ _)
  · intro h
    rw [simulate_equity, if_pos h]
  · intro h
    rw [simulate_equity, if_neg (by omega)]

/-- Witness for C10: a board where 26 cards are visible, so at most one
unseen card remains and the simulator returns the neutral 0.5. -/
theorem c10_equity_total_and_degenerate_witness :
    (unseenCards [0, 9] [1, 2, 3, 4, 5]
        [6, 7, 8, 10, 11, 12, 13, 14, 15, 16, 17, 18, 19, 20, 21, 22, 23, 24, 25]).length < 2 ∧
    simulate_equity [0, 9] [1, 2, 3, 4, 5]
        [6, 7, 8, 10, 11, 12, 13, 14, 15, 16, 17, 18, 19, 20, 21, 22, 23, 24, 25] [] = 1/2 :=
  ⟨by decide,
    (c10_equity_total_and_degenerate [0, 9] [1, 2, 3, 4, 5]
        [6, 7, 8, 10, 11, 12, 13, 14, 15, 16, 17, 18, 19, 20, 21, 22, 23, 24, 25] []).2.1
      (by decide)⟩

end Pokah
